import Mathlib

/-!
# Workflow synthesis core: shallow embedding and verification

This development embeds the workflow-synthesis core of the repository
(`cesar_src/models/schemas.py`, `cesar_src/services/mermaid.py`,
`cesar_src/agents/extractor_agent.py`, `cesar_src/agents/orchestrator.py`)
into Lean and proves properties of the embedded definitions.

Python strings are modelled as `List Char` (`Str`), python lists as `List`,
`Optional[...]` as `Option`, and a `raise ValueError(msg)` as
`Except.error` carrying a `ValidationError` whose `message` is the exact
python message string.  The `networkx` acyclicity and in-degree checks used
by `_validate_dag` are embedded as executable functions over the explicit
edge list (`hasCycleB`, `hasRootB`); soundness / completeness lemmas below
relate them to inductively defined reachability.
-/

/-- Python `str`, modelled as its list of characters. -/
abbrev Str := List Char

/-- `ConditionalLogic` pydantic model (schemas.py lines 7-10). -/
structure ConditionalLogic where
  condition : Str
  true_path_task_id : Str
  false_path_task_id : Option Str
deriving DecidableEq

/-- `KnowledgeItem` pydantic model (schemas.py lines 12-14). -/
structure KnowledgeItem where
  id : Str
  description : Str
deriving DecidableEq

/-- `SkillItem` pydantic model (schemas.py lines 16-18). -/
structure SkillItem where
  id : Str
  description : Str
deriving DecidableEq

/-- `TaskObject` pydantic model (schemas.py lines 20-28).  The
`default_factory` uuid for `task_id` is caller-supplied here (the claims
never depend on generated ids). -/
structure TaskObject where
  task_id : Str
  task_description : Str
  role_owner : Str
  precedes_tasks : List Str
  dependencies : List Str
  conditional_logic : Option ConditionalLogic
  required_knowledge : List KnowledgeItem
  required_skill_tags : List SkillItem
deriving DecidableEq

/-- `JobWorkflowSchema` record part (schemas.py lines 30-32): the raw data,
before pydantic validation.  Validated construction is `mkWorkflow`. -/
structure JobWorkflowSchema where
  workflow_name : Str
  tasks : List TaskObject
deriving DecidableEq

/-- The `ValueError`s raised by `JobWorkflowSchema`'s validators, one
constructor per `raise` site in schemas.py. -/
inductive ValidationError where
  | dependencyNotFound (d : Str)
  | successorNotFound (n : Str)
  | cycles
  | noRoot
deriving DecidableEq

/-- The exact python message string of each `ValueError` in schemas.py. -/
def ValidationError.message : ValidationError → Str
  | .dependencyNotFound d => ("Dependency '").data ++ d ++ ("' not found").data
  | .successorNotFound n => ("Successor '").data ++ n ++ ("' not found").data
  | .cycles => ("Workflow contains cycles").data
  | .noRoot => ("No root task detected").data

/-- Boolean membership of a string in a list of strings (python `in` on the
id set). -/
def memB (x : Str) : List Str → Bool
  | [] => false
  | y :: rest => x == y || memB x rest

/-- The id set `ids = {t.task_id for t in tasks}` (only membership is ever
used, so the list of ids models the set). -/
def taskIds (tasks : List TaskObject) : List Str := tasks.map (·.task_id)

/-- First element of `l` that is not in `ids`, if any (the first reference
the python loops would flag). -/
def findMissing (ids : List Str) : List Str → Option Str
  | [] => none
  | d :: rest => if memB d ids then findMissing ids rest else some d

/-- Loop body of `_validate_refs` (schemas.py lines 36-45): per task, first
every `dependencies` entry, then every `precedes_tasks` entry, failing on
the first id not in `ids`. -/
def refsGo (ids : List Str) : List TaskObject → Except ValidationError Unit
  | [] => .ok ()
  | t :: rest =>
    match findMissing ids t.dependencies with
    | some d => .error (.dependencyNotFound d)
    | none =>
      match findMissing ids t.precedes_tasks with
      | some n => .error (.successorNotFound n)
      | none => refsGo ids rest

/-- `JobWorkflowSchema._validate_refs` (schemas.py lines 34-45). -/
def validate_refs (tasks : List TaskObject) : Except ValidationError Unit :=
  refsGo (taskIds tasks) tasks

/-- The edges `_validate_dag` adds for one task (schemas.py lines 52-58):
one per `precedes_tasks` entry, plus the conditional edges.  Python
truthiness: `if t.conditional_logic.false_path_task_id:` is false for both
`None` and the empty string. -/
def taskEdges (t : TaskObject) : List (Str × Str) :=
  t.precedes_tasks.map (fun n => (t.task_id, n)) ++
    match t.conditional_logic with
    | none => []
    | some c =>
      (t.task_id, c.true_path_task_id) ::
        match c.false_path_task_id with
        | none => []
        | some f => if f = [] then [] else [(t.task_id, f)]

/-- All edges of the `networkx.DiGraph` built by `_validate_dag`. -/
def workflowEdges (tasks : List TaskObject) : List (Str × Str) :=
  (tasks.map taskEdges).flatten

/-- The node list of the `DiGraph`: every task id (`add_node`) plus both
endpoints of every edge (`add_edge` inserts missing endpoints).  Only
membership matters; duplicates are harmless. -/
def graphNodes (tasks : List TaskObject) : List Str :=
  taskIds tasks ++ (workflowEdges tasks).map (·.1) ++ (workflowEdges tasks).map (·.2)

/-- One breadth step of reachability: add every edge target whose source is
already in `s`. -/
def expand (es : List (Str × Str)) (s : List Str) : List Str :=
  s ++ (es.filter (fun e => memB e.1 s)).map (·.2)

/-- `fuel` breadth steps of reachability from the set `s`. -/
def reachAux (es : List (Str × Str)) : Nat → List Str → List Str
  | 0, s => s
  | n + 1, s => reachAux es n (expand es s)

/-- `v` is reachable from `u` along `es` within `fuel` steps. -/
def reaches (es : List (Str × Str)) (fuel : Nat) (u v : Str) : Bool :=
  memB v (reachAux es fuel [u])

/-- Embedding of `not nx.is_directed_acyclic_graph(G)` (schemas.py line
59): the graph has a directed cycle iff some edge `(u, v)` closes one,
i.e. `u` is reachable from `v`.  A simple cycle visits at most
`(graphNodes tasks).length` vertices, so that much fuel suffices; the
reachability lemmas below make the connection precise. -/
def hasCycleB (tasks : List TaskObject) : Bool :=
  let es := workflowEdges tasks
  es.any (fun e => reaches es (graphNodes tasks).length e.2 e.1)

/-- Embedding of the root check (schemas.py lines 61-62): some graph node
has in-degree zero, i.e. is the target of no edge. -/
def hasRootB (tasks : List TaskObject) : Bool :=
  (graphNodes tasks).any (fun v => (workflowEdges tasks).all (fun e => !(e.2 == v)))

/-- `JobWorkflowSchema._validate_dag` (schemas.py lines 47-64): cycle check
first, then root check. -/
def validate_dag (tasks : List TaskObject) : Except ValidationError Unit :=
  if hasCycleB tasks then .error .cycles
  else if hasRootB tasks then .ok ()
  else .error .noRoot

/-- Everything pydantic runs when a `JobWorkflowSchema` is constructed:
the field validator `_validate_refs`, then the model validator
`_validate_dag`. -/
def validateTasks (tasks : List TaskObject) : Except ValidationError Unit :=
  match validate_refs tasks with
  | .error e => .error e
  | .ok () => validate_dag tasks

/-- Validated construction `JobWorkflowSchema(workflow_name=..., tasks=...)`:
returns the model, or the first `ValueError` raised by the validators. -/
def mkWorkflow (name : Str) (tasks : List TaskObject) :
    Except ValidationError JobWorkflowSchema :=
  match validateTasks tasks with
  | .error e => .error e
  | .ok () => .ok ⟨name, tasks⟩

/-- Join a list of emitted lines with `"\n"` (python `"\n".join(lines)`). -/
def joinNL : List Str → Str
  | [] => []
  | [l] => l
  | l :: rest => l ++ '\n' :: joinNL rest

namespace Mermaid

/-- `Mermaid._sanitize` (mermaid.py lines 6-8): replace every newline by a
space, every double quote by a single quote, then truncate to
`maxLen - 1` characters plus `"..."` when longer than `maxLen`.  The
python `(text or "")` is the identity on the `str` arguments it receives
and is dropped. -/
def sanitize (text : Str) (maxLen : Nat) : Str :=
  let t := (text.map (fun c => if c = '\n' then ' ' else c)).map
    (fun c => if c = '"' then '\'' else c)
  if maxLen < t.length then t.take (maxLen - 1) ++ ("...").data else t

/-- The node-declaration entry emitted for one task (mermaid.py lines
14-16); note the literal `\n<sub>` inside the f-string.  Python truthiness:
`t.role_owner or "role?"` falls back on the empty string. -/
def nodeLine (t : TaskObject) : Str :=
  let role := if t.role_owner = [] then ("role?").data else t.role_owner
  let label := sanitize t.task_description 120
  ("    ").data ++ t.task_id ++ ("([\"").data ++ label ++ ("\n<sub>").data ++
    role ++ ("</sub>\"])").data

/-- The conditional-edge entries emitted for one task (mermaid.py lines
20-24): one labeled edge to the true target, plus an `Else` edge when
`false_path_task_id` is truthy. -/
def condEdgeLines (t : TaskObject) : List Str :=
  match t.conditional_logic with
  | none => []
  | some c =>
    (("    ").data ++ t.task_id ++ (" -- \"").data ++ sanitize c.condition 60 ++
        ("\" --> ").data ++ c.true_path_task_id) ::
      match c.false_path_task_id with
      | none => []
      | some f =>
        if f = [] then []
        else [("    ").data ++ t.task_id ++ (" -- \"Else\" --> ").data ++ f]

/-- All edge entries emitted for one task (mermaid.py lines 17-24): one per
`precedes_tasks` entry, then the conditional edges. -/
def edgeLines (t : TaskObject) : List Str :=
  t.precedes_tasks.map (fun n => ("    ").data ++ t.task_id ++ (" --> ").data ++ n) ++
    condEdgeLines t

/-- The decision-node style entries (mermaid.py lines 25-29), listing tasks
with a `conditional_logic` in declaration order. -/
def classLines (tasks : List TaskObject) : List Str :=
  let dec := (tasks.filter (fun t => t.conditional_logic.isSome)).map (·.task_id)
  if dec = [] then []
  else ("    classDef decisionNode fill:#ffe4b5,stroke:#333;").data ::
    dec.map (fun n => ("    class ").data ++ n ++ (" decisionNode;").data)

/-- The full `lines` list built by `Mermaid.render` (mermaid.py lines
12-29): header, node entries in declaration order, edge entries in
declaration order, then the decision-node style entries. -/
def renderLines (wf : JobWorkflowSchema) : List Str :=
  ("graph TD").data :: (wf.tasks.map nodeLine ++
    (wf.tasks.map edgeLines).flatten ++ classLines wf.tasks)

/-- `Mermaid.render` (mermaid.py lines 10-30): `"\n".join(lines)`. -/
def render (wf : JobWorkflowSchema) : Str :=
  joinNL (renderLines wf)

end Mermaid

/-- Spec-side single-character substitution (§4.3 sanitization): newlines
collapse to spaces, double quotes become single quotes, all other
characters unchanged. -/
def collapseChar (c : Char) : Char :=
  if c = '\n' then ' ' else if c = '"' then '\'' else c

/-- Decimal digits of `n` (least significant last), with explicit fuel;
mirrors python `str(n)` for `n > 0` when called with fuel `≥ n`. -/
def natToStrAux : Nat → Nat → Str
  | _, 0 => []
  | 0, _ => []
  | fuel + 1, n + 1 => natToStrAux fuel ((n + 1) / 10) ++ [Nat.digitChar ((n + 1) % 10)]

/-- Python `str(n)` for a natural number. -/
def natToStr (n : Nat) : Str :=
  if n = 0 then [('0')] else natToStrAux n n

/-- The fallback task id `f"T{idx}"` (extractor_agent.py line 91). -/
def taskIdFor (idx : Nat) : Str := 'T' :: natToStr idx

/-- Python line-break characters handled by `str.splitlines` that can occur
in transcripts (`\n`, `\r`, `\v`, `\f`; `\r\n` counts as one break). -/
def isLineBreak (c : Char) : Bool :=
  c = '\n' || c = '\r' || c = '\x0b' || c = '\x0c'

/-- Worker for `splitLines`: accumulate the current line (reversed). -/
def splitLinesGo : Str → Str → List Str
  | [], acc => if acc = [] then [] else [acc.reverse]
  | '\r' :: '\n' :: rest, acc => acc.reverse :: splitLinesGo rest []
  | c :: rest, acc =>
    if isLineBreak c then acc.reverse :: splitLinesGo rest []
    else splitLinesGo rest (c :: acc)

/-- Python `str.splitlines` (no trailing empty line; `""` gives `[]`). -/
def splitLines (s : Str) : List Str :=
  if s = [] then [] else splitLinesGo s []

/-- Python whitespace stripped by `str.strip()`. -/
def isSpaceChar (c : Char) : Bool :=
  c = ' ' || c = '\t' || c = '\n' || c = '\r' || c = '\x0b' || c = '\x0c'

/-- Python `str.strip()`. -/
def pyStrip (s : Str) : Str :=
  ((s.dropWhile isSpaceChar).reverse.dropWhile isSpaceChar).reverse

/-- Split at the first `':'`, python `line.split(":", 1)`; `none` when the
line has no colon (the `":" in line` test). -/
def splitFirstColon : Str → Option (Str × Str)
  | [] => none
  | c :: rest =>
    if c = ':' then some ([], rest)
    else (splitFirstColon rest).map (fun p => (c :: p.1, p.2))

/-- One fallback task (extractor_agent.py lines 83-99): `idx` is 1-based,
`n` the number of non-blank lines; `precedes_tasks` links to the next task
except for the last one. -/
def fallbackTask (n idx : Nat) (line : Str) : TaskObject :=
  let rd : Str × Str :=
    match splitFirstColon line with
    | some (speaker, content) =>
      (if pyStrip speaker = [] then ("Unknown").data else pyStrip speaker,
       if pyStrip content = [] then ("Task description unavailable").data else pyStrip content)
    | none => (("Unknown").data, line)
  { task_id := taskIdFor idx
    task_description := rd.2
    role_owner := rd.1
    precedes_tasks := if idx < n then [taskIdFor (idx + 1)] else []
    dependencies := []
    conditional_logic := none
    required_knowledge := []
    required_skill_tags := [] }

/-- The single placeholder task used when the transcript has no non-blank
lines (extractor_agent.py lines 100-107). -/
def fallbackDefaultTask : TaskObject :=
  { task_id := ("T1").data
    task_description := ("No actionable steps detected").data
    role_owner := ("Unknown").data
    precedes_tasks := []
    dependencies := []
    conditional_logic := none
    required_knowledge := []
    required_skill_tags := [] }

/-- The task list the fallback builds from the non-blank stripped lines. -/
def fallbackTasks (lines : List Str) : List TaskObject :=
  lines.enum.map (fun p => fallbackTask lines.length (p.1 + 1) p.2)

/-- `ExtractorAgent._fallback` (extractor_agent.py lines 78-109): the
rule-based linear-chain workflow built from the transcript's non-blank
stripped lines.  `err` models the optional exception type name appended to
the workflow name.  The result is the raw model value; this file proves it
always passes validation. -/
def fallback (transcript : Str) (err : Option Str) : JobWorkflowSchema :=
  let lines := ((splitLines transcript).map pyStrip).filter (fun l => l ≠ [])
  let tasks := fallbackTasks lines
  let tasks := if tasks = [] then [fallbackDefaultTask] else tasks
  let suffix := match err with
    | none => ([] : Str)
    | some en => (" (fallback: ").data ++ en ++ (")").data
  { workflow_name := ("Fallback Workflow").data ++ suffix, tasks := tasks }

/-- The enrichment stage of `Orchestrator.process_transcript`
(orchestrator.py lines 82-87).  The enricher is `none` when absent; an
enricher that raises is modelled as returning `Except.error`.  The python
rebinds `workflow` to the enricher's result *before* re-validating, and the
surrounding `except Exception: pass` swallows a re-validation failure, so
the stage's result is the enriched workflow whether or not re-validation
succeeded; only an exception *inside* `enrich` keeps the pre-enrichment
workflow. -/
def enrichStage (wf : JobWorkflowSchema)
    (enricher : Option (JobWorkflowSchema → Except Str JobWorkflowSchema)) :
    JobWorkflowSchema :=
  match enricher with
  | none => wf
  | some f =>
    match f wf with
    | .error _ => wf
    | .ok wf2 =>
      match validateTasks wf2.tasks with
      | .error _ => wf2
      | .ok _ => wf2

/-- Semantic reachability along an edge list: `ReachE es u v` holds when
there is a (possibly empty) directed path from `u` to `v`. -/
inductive ReachE (es : List (Str × Str)) : Str → Str → Prop where
  | refl (v : Str) : ReachE es v v
  | head {u v w : Str} : (u, v) ∈ es → ReachE es v w → ReachE es u w

/-- `chainOk es l` : consecutive elements of `l` are joined by edges. -/
def chainOk (es : List (Str × Str)) : List Str → Bool
  | [] => true
  | [_] => true
  | a :: b :: rest => decide ((a, b) ∈ es) && chainOk es (b :: rest)

/-- `l` is a simple directed cycle of `es`: nonempty, duplicate-free,
consecutive elements joined by edges, and an edge from the last element
back to the first. -/
def isCycleB (es : List (Str × Str)) (l : List Str) : Bool :=
  match l with
  | [] => false
  | a :: rest =>
    decide ((a :: rest).Nodup) && chainOk es (a :: rest) &&
      decide (((a :: rest).getLastD a, a) ∈ es)

/-- Source of the first edge of `es` targeting `v` (used to walk backwards
through a rootless graph); `v` itself when no edge targets `v`. -/
def stepBack (es : List (Str × Str)) (v : Str) : Str :=
  match es.find? (fun e => e.2 == v) with
  | some e => e.1
  | none => v

/-- `k` backward steps from `v`. -/
def walkBack (es : List (Str × Str)) : Nat → Str → Str
  | 0, v => v
  | k + 1, v => stepBack es (walkBack es k v)

/-- Decimal decoding of a digit string, inverse of `natToStr`. -/
def decodeDigits (s : Str) : Nat :=
  s.foldl (fun a c => 10 * a + (c.toNat - 48)) 0

/-- Ad-hoc task constructor used by the concrete examples below. -/
def mkTask (i desc role : Str) (pre deps : List Str)
    (cl : Option ConditionalLogic) : TaskObject :=
  ⟨i, desc, role, pre, deps, cl, [], []⟩

/-- Two distinct tasks sharing the task id `"A"`. -/
def dupTask1 : TaskObject :=
  mkTask (("A").data) (("first").data) (("r").data) [] [] none

/-- Second task with the duplicated id `"A"`. -/
def dupTask2 : TaskObject :=
  mkTask (("A").data) (("second").data) (("r").data) [] [] none

/-- A task whose conditional branch targets the non-existent task `"Z"`. -/
def condDanglingTask : TaskObject :=
  mkTask (("A").data) (("d").data) (("r").data) [] []
    (some ⟨("c").data, ("Z").data, none⟩)

/-- A task with both a missing dependency `"D"` and a missing successor
`"P"`. -/
def refsBothTask : TaskObject :=
  mkTask (("A").data) (("d").data) (("r").data) [("P").data] [("D").data] none

/-- Task `A` preceding `B` (half of the two-cycle). -/
def cycTaskA : TaskObject :=
  mkTask (("A").data) (("d").data) (("r").data) [("B").data] [] none

/-- Task `B` preceding `A` (other half of the two-cycle). -/
def cycTaskB : TaskObject :=
  mkTask (("B").data) (("d").data) (("r").data) [("A").data] [] none

/-- Task `A` declaring a dependency on `B` (no edges contributed). -/
def depCycTaskA : TaskObject :=
  mkTask (("A").data) (("d").data) (("r").data) [] [("B").data] none

/-- Task `B` declaring a dependency on `A` (dependency two-cycle). -/
def depCycTaskB : TaskObject :=
  mkTask (("B").data) (("d").data) (("r").data) [] [("A").data] none

/-- A structurally valid one-task workflow handed to the enrichment
stage. -/
def c5GoodWf : JobWorkflowSchema :=
  ⟨("W").data, [mkTask (("A").data) (("d").data) (("r").data) [] [] none]⟩

/-- A workflow an enricher could return after in-place mutation: task `A`
now lists the non-existent successor `"Z"`, so it fails validation. -/
def c5BadWf : JobWorkflowSchema :=
  ⟨("W").data, [mkTask (("A").data) (("d").data) (("r").data) [("Z").data] [] none]⟩

/-- Task `T1` of the rendering scenario, preceding `T2`. -/
def t1def : TaskObject :=
  mkTask (("T1").data) (("d1").data) (("r").data) [("T2").data] [] none

/-- Task `T2` of the rendering scenario. -/
def t2def : TaskObject :=
  mkTask (("T2").data) (("d2").data) (("r").data) [] [] none

/-- The validated two-task workflow of the rendering scenario. -/
def wfT : JobWorkflowSchema := ⟨("W").data, [t1def, t2def]⟩

/-- A conditional branch with only a true target. -/
def condOnlyTrueCL : ConditionalLogic := ⟨("c?").data, ("B").data, none⟩

/-- A task carrying `condOnlyTrueCL`. -/
def condOnlyTrueTask : TaskObject :=
  mkTask (("A").data) (("d").data) (("r").data) [] [] (some condOnlyTrueCL)

/-- A task whose `precedes_tasks` names the non-existent task `"Z"` (its
edge graph `A → Z` is acyclic and has the root `A`). -/
def danglingPrecTask : TaskObject :=
  mkTask (("A").data) (("d").data) (("r").data) [("Z").data] [] none

/-- Decidable equality for `Except` results (absent from core). -/
def exceptEqDec {ε α : Type} [DecidableEq ε] [DecidableEq α] :
    DecidableEq (Except ε α)
  | .ok x, .ok y =>
    if h : x = y then .isTrue (by rw [h])
    else .isFalse (fun hc => h (by injection hc))
  | .ok _, .error _ => .isFalse (fun hc => Except.noConfusion hc)
  | .error _, .ok _ => .isFalse (fun hc => Except.noConfusion hc)
  | .error e, .error f =>
    if h : e = f then .isTrue (by rw [h])
    else .isFalse (fun hc => h (by injection hc))

instance {ε α : Type} [DecidableEq ε] [DecidableEq α] :
    DecidableEq (Except ε α) := exceptEqDec

/-! ## Lemmas: membership and the reference check -/

theorem memB_iff (x : Str) (l : List Str) : memB x l = true ↔ x ∈ l := by
  induction l with
  | nil => simp [memB]
  | cons y rest ih => simp [memB, ih, List.mem_cons]

theorem findMissing_none_iff (ids l : List Str) :
    findMissing ids l = none ↔ ∀ d ∈ l, d ∈ ids := by
  induction l with
  | nil => simp [findMissing]
  | cons d rest ih =>
    by_cases h : memB d ids
    · have hd : d ∈ ids := (memB_iff d ids).mp h
      simp [findMissing, h, ih, hd]
    · have hd : ¬ d ∈ ids := fun hm => h ((memB_iff d ids).mpr hm)
      simp [findMissing, h, hd]

theorem findMissing_some (ids l : List Str) (d : Str) :
    findMissing ids l = some d → d ∈ l ∧ ¬ d ∈ ids := by
  induction l with
  | nil => intro h; simp [findMissing] at h
  | cons a rest ih =>
    intro h
    simp only [findMissing] at h
    split at h
    · rcases ih h with ⟨h1, h2⟩
      exact ⟨List.mem_cons_of_mem _ h1, h2⟩
    · next hc =>
      injection h with h
      subst h
      exact ⟨List.mem_cons_self _ _, fun hm => hc ((memB_iff _ ids).mpr hm)⟩

theorem refsGo_ok_iff (ids : List Str) (ts : List TaskObject) :
    refsGo ids ts = .ok () ↔
      ∀ t ∈ ts, (∀ d ∈ t.dependencies, d ∈ ids) ∧ (∀ p ∈ t.precedes_tasks, p ∈ ids) := by
  induction ts with
  | nil => simp [refsGo]
  | cons t rest ih =>
    cases hd : findMissing ids t.dependencies with
    | some d =>
      simp only [refsGo, hd]
      rcases findMissing_some ids _ d hd with ⟨hmem, hnot⟩
      constructor
      · intro h; simp at h
      · intro h
        exact absurd ((h t (List.mem_cons_self _ _)).1 d hmem) hnot
    | none =>
      cases hp : findMissing ids t.precedes_tasks with
      | some n =>
        simp only [refsGo, hd, hp]
        rcases findMissing_some ids _ n hp with ⟨hmem, hnot⟩
        constructor
        · intro h; simp at h
        · intro h
          exact absurd ((h t (List.mem_cons_self _ _)).2 n hmem) hnot
      | none =>
        simp only [refsGo, hd, hp, ih]
        constructor
        · intro h t' ht'
          rcases List.mem_cons.mp ht' with h1 | h1
          · subst h1
            exact ⟨(findMissing_none_iff _ _).mp hd, (findMissing_none_iff _ _).mp hp⟩
          · exact h t' h1
        · intro h t' ht'
          exact h t' (List.mem_cons_of_mem _ ht')

theorem validate_refs_ok_iff (tasks : List TaskObject) :
    validate_refs tasks = .ok () ↔
      ∀ t ∈ tasks, (∀ d ∈ t.dependencies, d ∈ taskIds tasks) ∧
        (∀ p ∈ t.precedes_tasks, p ∈ taskIds tasks) :=
  refsGo_ok_iff (taskIds tasks) tasks

theorem refsGo_error_shape (ids : List Str) (ts : List TaskObject)
    (e : ValidationError) (h : refsGo ids ts = .error e) :
    (∃ d, e = .dependencyNotFound d) ∨ (∃ n, e = .successorNotFound n) := by
  induction ts with
  | nil => simp [refsGo] at h
  | cons t rest ih =>
    cases hd : findMissing ids t.dependencies with
    | some d =>
      simp only [refsGo, hd, Except.error.injEq] at h
      exact Or.inl ⟨d, h.symm⟩
    | none =>
      cases hp : findMissing ids t.precedes_tasks with
      | some n =>
        simp only [refsGo, hd, hp, Except.error.injEq] at h
        exact Or.inr ⟨n, h.symm⟩
      | none =>
        simp only [refsGo, hd, hp] at h
        exact ih h

/-! ## Lemmas: bounded reachability -/

theorem mem_expand {es : List (Str × Str)} {s : List Str} {x : Str} :
    x ∈ expand es s ↔ x ∈ s ∨ ∃ e ∈ es, e.1 ∈ s ∧ e.2 = x := by
  simp [expand, List.mem_append, List.mem_map, List.mem_filter, memB_iff]

theorem subset_expand (es : List (Str × Str)) (s : List Str) : s ⊆ expand es s :=
  fun _ hx => mem_expand.mpr (Or.inl hx)

theorem expand_mono {es : List (Str × Str)} {s t : List Str} (h : s ⊆ t) :
    expand es s ⊆ expand es t := by
  intro x hx
  rcases mem_expand.mp hx with h1 | ⟨e, he, h1, h2⟩
  · exact mem_expand.mpr (Or.inl (h h1))
  · exact mem_expand.mpr (Or.inr ⟨e, he, h h1, h2⟩)

theorem step_expand {es : List (Str × Str)} {s : List Str} {x y : Str}
    (hx : x ∈ s) (he : (x, y) ∈ es) : y ∈ expand es s :=
  mem_expand.mpr (Or.inr ⟨(x, y), he, hx, rfl⟩)

theorem reachAux_mono {es : List (Str × Str)} :
    ∀ (n : Nat) {s t : List Str}, s ⊆ t → reachAux es n s ⊆ reachAux es n t := by
  intro n
  induction n with
  | zero => intro s t h; simpa [reachAux] using h
  | succ n ih => intro s t h; exact ih (expand_mono h)

theorem subset_reachAux (es : List (Str × Str)) :
    ∀ (n : Nat) (s : List Str), s ⊆ reachAux es n s := by
  intro n
  induction n with
  | zero => intro s; simp [reachAux]
  | succ n ih =>
    intro s
    exact fun x hx => ih (expand es s) (subset_expand es s hx)

theorem reachAux_succ_superset (es : List (Str × Str)) (n : Nat) (s : List Str) :
    reachAux es n s ⊆ reachAux es (n + 1) s :=
  reachAux_mono n (subset_expand es s)

theorem reachAux_fuel_mono (es : List (Str × Str)) {m n : Nat} (h : m ≤ n)
    (s : List Str) : reachAux es m s ⊆ reachAux es n s := by
  induction h with
  | refl => exact fun x hx => hx
  | @step k h ih => exact fun x hx => reachAux_succ_superset es k s (ih hx)

theorem reach_sound (es : List (Str × Str)) :
    ∀ (n : Nat) (s : List Str) (v : Str), v ∈ reachAux es n s →
      ∃ u ∈ s, ReachE es u v := by
  intro n
  induction n with
  | zero => intro s v hv; exact ⟨v, hv, ReachE.refl v⟩
  | succ n ih =>
    intro s v hv
    rcases ih (expand es s) v hv with ⟨u, hu, hr⟩
    rcases mem_expand.mp hu with h1 | ⟨e, he, h1, h2⟩
    · exact ⟨u, h1, hr⟩
    · refine ⟨e.1, h1, ReachE.head ?_ hr⟩
      have : e = (e.1, e.2) := rfl
      rw [h2] at this
      exact this ▸ he

/-! ## Lemmas: graph nodes and simple cycles -/

theorem mem_graphNodes_of_source {tasks : List TaskObject} {e : Str × Str}
    (he : e ∈ workflowEdges tasks) : e.1 ∈ graphNodes tasks := by
  unfold graphNodes
  exact List.mem_append.mpr
    (Or.inl (List.mem_append.mpr (Or.inr (List.mem_map.mpr ⟨e, he, rfl⟩))))

theorem mem_graphNodes_of_taskId {tasks : List TaskObject} {x : Str}
    (hx : x ∈ taskIds tasks) : x ∈ graphNodes tasks := by
  unfold graphNodes
  exact List.mem_append.mpr (Or.inl (List.mem_append.mpr (Or.inl hx)))

theorem nodup_length_le (l L : List Str) (hnd : l.Nodup)
    (hsub : ∀ x ∈ l, x ∈ L) : l.length ≤ L.length := by
  have h1 : l.toFinset.card = l.length := List.toFinset_card_of_nodup hnd
  have h2 : l.toFinset ⊆ L.toFinset := by
    intro x hx
    exact List.mem_toFinset.mpr (hsub x (List.mem_toFinset.mp hx))
  calc l.length = l.toFinset.card := h1.symm
    _ ≤ L.toFinset.card := Finset.card_le_card h2
    _ ≤ L.length := List.toFinset_card_le L

theorem chainOk_reach (es : List (Str × Str)) :
    ∀ (rest : List Str) (a : Str) (fuel : Nat),
      chainOk es (a :: rest) = true → rest.length ≤ fuel →
      (a :: rest).getLastD a ∈ reachAux es fuel [a] := by
  intro rest
  induction rest with
  | nil =>
    intro a fuel _ _
    exact subset_reachAux es fuel [a] (List.mem_singleton_self a)
  | cons b rest' ih =>
    intro a fuel hch hfuel
    simp only [chainOk, Bool.and_eq_true, decide_eq_true_eq] at hch
    rcases hch with ⟨hab, hch⟩
    cases fuel with
    | zero => simp at hfuel
    | succ f =>
      have hsub : [b] ⊆ expand es [a] := by
        intro x hx
        rcases List.mem_singleton.mp hx with rfl
        exact step_expand (List.mem_singleton_self a) hab
      have hstep : reachAux es f [b] ⊆ reachAux es (f + 1) [a] :=
        fun x hx => reachAux_mono f hsub hx
      have hlen : rest'.length ≤ f := by
        simpa using Nat.succ_le_succ_iff.mp (by simpa using hfuel)
      have hih := ih b f hch hlen
      have hgoal : (a :: b :: rest').getLastD a = (b :: rest').getLastD b := rfl
      rw [hgoal]
      exact hstep hih

theorem chain_sources (es : List (Str × Str)) :
    ∀ (l : List Str) (a : Str), chainOk es (a :: l) = true →
      ∀ x ∈ a :: l, x ∈ es.map Prod.fst ∨ x = (a :: l).getLastD a := by
  intro l
  induction l with
  | nil =>
    intro a _ x hx
    rcases List.mem_singleton.mp hx with rfl
    exact Or.inr rfl
  | cons b rest ih =>
    intro a hch x hx
    simp only [chainOk, Bool.and_eq_true, decide_eq_true_eq] at hch
    rcases hch with ⟨hab, hch⟩
    rcases List.mem_cons.mp hx with rfl | hx'
    · exact Or.inl (List.mem_map.mpr ⟨(x, b), hab, rfl⟩)
    · rcases ih b hch x hx' with h1 | h1
      · exact Or.inl h1
      · refine Or.inr ?_
        rw [h1]
        rfl

theorem isCycle_hasCycle {tasks : List TaskObject} {l : List Str}
    (h : isCycleB (workflowEdges tasks) l = true) : hasCycleB tasks = true := by
  cases l with
  | nil => simp [isCycleB] at h
  | cons a rest =>
    simp only [isCycleB, Bool.and_eq_true, decide_eq_true_eq] at h
    rcases h with ⟨⟨hnd, hch⟩, hlast⟩
    set es := workflowEdges tasks with hes
    set z := (a :: rest).getLastD a with hz
    have hsources : ∀ x ∈ a :: rest, x ∈ es.map Prod.fst := by
      intro x hx
      rcases chain_sources es rest a hch x hx with h1 | h1
      · exact h1
      · rw [h1, ← hz]
        exact List.mem_map.mpr ⟨(z, a), hlast, rfl⟩
    have hsub : ∀ x ∈ a :: rest, x ∈ graphNodes tasks := by
      intro x hx
      have h1 := hsources x hx
      rcases List.mem_map.mp h1 with ⟨e, he, h2⟩
      exact h2 ▸ mem_graphNodes_of_source he
    have hlen : (a :: rest).length ≤ (graphNodes tasks).length :=
      nodup_length_le _ _ hnd hsub
    have hfuel : rest.length ≤ (graphNodes tasks).length := by
      simp only [List.length_cons] at hlen
      omega
    have hreach : z ∈ reachAux es (graphNodes tasks).length [a] :=
      chainOk_reach es rest a _ hch hfuel
    unfold hasCycleB
    rw [List.any_eq_true]
    refine ⟨(z, a), hlast, ?_⟩
    unfold reaches
    exact (memB_iff _ _).mpr hreach

/-! ## Lemmas: a nonempty acyclic graph has a root -/

theorem hasRootB_eq_false_iff (tasks : List TaskObject) :
    hasRootB tasks = false ↔
      ∀ v ∈ graphNodes tasks, ∃ e ∈ workflowEdges tasks, e.2 = v := by
  rw [← Bool.not_eq_true, hasRootB, List.any_eq_true]
  push_neg
  constructor
  · intro h v hv
    have h1 := h v hv
    simp [List.all_eq_true] at h1
    rcases h1 with ⟨x, hx⟩
    exact ⟨(x, v), hx, rfl⟩
  · intro h v hv
    simp [List.all_eq_true]
    rcases h v hv with ⟨e, he, h2⟩
    exact ⟨e.1, h2 ▸ he⟩

theorem stepBack_spec {tasks : List TaskObject}
    (hnr : ∀ v ∈ graphNodes tasks, ∃ e ∈ workflowEdges tasks, e.2 = v)
    {v : Str} (hv : v ∈ graphNodes tasks) :
    (stepBack (workflowEdges tasks) v, v) ∈ workflowEdges tasks ∧
      stepBack (workflowEdges tasks) v ∈ graphNodes tasks := by
  rcases hnr v hv with ⟨e, he, hev⟩
  have hsome : ((workflowEdges tasks).find? (fun e => e.2 == v)).isSome := by
    rw [List.find?_isSome]
    exact ⟨e, he, by simp [hev]⟩
  rcases Option.isSome_iff_exists.mp hsome with ⟨e', hfind⟩
  have hmem : e' ∈ workflowEdges tasks := List.mem_of_find?_eq_some hfind
  have he2 : e'.2 = v := by simpa using List.find?_some hfind
  have hsb : stepBack (workflowEdges tasks) v = e'.1 := by
    simp [stepBack, hfind]
  constructor
  · rw [hsb, ← he2]
    exact hmem
  · rw [hsb]
    exact mem_graphNodes_of_source hmem

theorem walkBack_mem {tasks : List TaskObject}
    (hnr : ∀ v ∈ graphNodes tasks, ∃ e ∈ workflowEdges tasks, e.2 = v)
    {v₀ : Str} (hv₀ : v₀ ∈ graphNodes tasks) :
    ∀ k : Nat, walkBack (workflowEdges tasks) k v₀ ∈ graphNodes tasks ∧
      (walkBack (workflowEdges tasks) (k + 1) v₀,
        walkBack (workflowEdges tasks) k v₀) ∈ workflowEdges tasks := by
  intro k
  induction k with
  | zero => exact ⟨hv₀, (stepBack_spec hnr hv₀).1⟩
  | succ k ih =>
    have h1 : walkBack (workflowEdges tasks) (k + 1) v₀ ∈ graphNodes tasks :=
      (stepBack_spec hnr ih.1).2
    exact ⟨h1, (stepBack_spec hnr h1).1⟩

theorem walk_reach (es : List (Str × Str)) (f : Nat → Str)
    (hedge : ∀ k : Nat, (f (k + 1), f k) ∈ es) :
    ∀ (d k : Nat), f k ∈ reachAux es d [f (k + d)] := by
  intro d
  induction d with
  | zero => intro k; exact List.mem_singleton_self _
  | succ d ih =>
    intro k
    have h1 : f (k + d) ∈ expand es [f (k + d + 1)] :=
      step_expand (List.mem_singleton_self _) (hedge (k + d))
    have h2 : reachAux es d [f (k + d)] ⊆ reachAux es d (expand es [f (k + (d + 1))]) := by
      apply reachAux_mono
      intro x hx
      rcases List.mem_singleton.mp hx with rfl
      exact h1
    exact h2 (ih k)

theorem cycle_from_repeat (tasks : List TaskObject) (f : Nat → Str)
    (hedge : ∀ k : Nat, (f (k + 1), f k) ∈ workflowEdges tasks)
    {i j : Nat} (hij : i < j) (hjN : j ≤ (graphNodes tasks).length)
    (hfij : f i = f j) : hasCycleB tasks = true := by
  have hreach : f (i + 1) ∈ reachAux (workflowEdges tasks) (j - i - 1) [f j] := by
    have h := walk_reach (workflowEdges tasks) f hedge (j - i - 1) (i + 1)
    rwa [show (i + 1) + (j - i - 1) = j by omega] at h
  have hreach2 : f (i + 1) ∈
      reachAux (workflowEdges tasks) (graphNodes tasks).length [f j] :=
    reachAux_fuel_mono _ (by omega) _ hreach
  rw [← hfij] at hreach2
  unfold hasCycleB
  rw [List.any_eq_true]
  exact ⟨(f (i + 1), f i), hedge i, (memB_iff _ _).mpr hreach2⟩

theorem hasRoot_of_acyclic {tasks : List TaskObject} (hne : tasks ≠ [])
    (hacyc : hasCycleB tasks = false) : hasRootB tasks = true := by
  by_contra hroot
  have hroot' : hasRootB tasks = false := by
    cases h : hasRootB tasks
    · rfl
    · exact absurd h hroot
  have hall := (hasRootB_eq_false_iff tasks).mp hroot'
  have hids : taskIds tasks ≠ [] := by
    simpa [taskIds] using hne
  obtain ⟨v₀, rest, hv₀eq⟩ := List.exists_cons_of_ne_nil hids
  have hv₀ : v₀ ∈ graphNodes tasks :=
    mem_graphNodes_of_taskId (hv₀eq ▸ List.mem_cons_self _ _)
  have hmemf : ∀ k : Nat, walkBack (workflowEdges tasks) k v₀ ∈ graphNodes tasks :=
    fun k => (walkBack_mem hall hv₀ k).1
  have hedge : ∀ k : Nat,
      (walkBack (workflowEdges tasks) (k + 1) v₀,
        walkBack (workflowEdges tasks) k v₀) ∈ workflowEdges tasks :=
    fun k => (walkBack_mem hall hv₀ k).2
  have hcard : ((graphNodes tasks).toFinset).card <
      (Finset.range ((graphNodes tasks).length + 1)).card := by
    rw [Finset.card_range]
    exact Nat.lt_succ_of_le (List.toFinset_card_le _)
  have hmaps : ∀ a ∈ Finset.range ((graphNodes tasks).length + 1),
      walkBack (workflowEdges tasks) a v₀ ∈ (graphNodes tasks).toFinset :=
    fun a _ => List.mem_toFinset.mpr (hmemf a)
  obtain ⟨i, hi, j, hj, hne', hfij⟩ :=
    Finset.exists_ne_map_eq_of_card_lt_of_maps_to hcard hmaps
  rw [Finset.mem_range] at hi hj
  rcases Nat.lt_or_ge i j with hij | hij
  · have hc := cycle_from_repeat tasks
      (fun k => walkBack (workflowEdges tasks) k v₀) hedge hij (by omega) hfij
    rw [hacyc] at hc
    exact Bool.false_ne_true hc
  · have hji : j < i := Nat.lt_of_le_of_ne hij (fun h => hne' h.symm)
    have hc := cycle_from_repeat tasks
      (fun k => walkBack (workflowEdges tasks) k v₀) hedge hji (by omega) hfij.symm
    rw [hacyc] at hc
    exact Bool.false_ne_true hc

/-! ## Lemmas: decimal ids of the fallback chain -/

theorem digitChar_toNat (d : Nat) (h : d < 10) : (Nat.digitChar d).toNat = 48 + d := by
  interval_cases d <;> rfl

theorem decode_append (l : Str) (c : Char) :
    decodeDigits (l ++ [c]) = 10 * decodeDigits l + (c.toNat - 48) := by
  simp [decodeDigits, List.foldl_append]

theorem decode_natToStrAux : ∀ (fuel n : Nat), n ≤ fuel →
    decodeDigits (natToStrAux fuel n) = n := by
  intro fuel
  induction fuel with
  | zero =>
    intro n hn
    cases Nat.le_zero.mp hn
    rfl
  | succ fuel ih =>
    intro n hn
    cases n with
    | zero => rfl
    | succ m =>
      have hdiv : (m + 1) / 10 ≤ fuel := by
        have h1 : (m + 1) / 10 < m + 1 := Nat.div_lt_self (Nat.succ_pos m) (by omega)
        omega
      have hmod : (m + 1) % 10 < 10 := Nat.mod_lt _ (by omega)
      show decodeDigits (natToStrAux fuel ((m + 1) / 10) ++ [Nat.digitChar ((m + 1) % 10)]) = m + 1
      rw [decode_append, ih _ hdiv, digitChar_toNat _ hmod]
      omega

theorem decode_natToStr (n : Nat) : decodeDigits (natToStr n) = n := by
  unfold natToStr
  split
  · next h => rw [h]; rfl
  · exact decode_natToStrAux n n (Nat.le_refl n)

theorem natToStr_injective : Function.Injective natToStr := by
  intro m n h
  have h1 := decode_natToStr m
  rw [h, decode_natToStr] at h1
  exact h1.symm

theorem taskIdFor_injective : Function.Injective taskIdFor := by
  intro a b h
  unfold taskIdFor at h
  injection h with h1 h2
  exact natToStr_injective h2

/-! ## Lemmas: shape of the fallback chain -/

theorem enum_map_fst_fn {α β : Type} (l : List α) (g : Nat → β) :
    l.enum.map (fun p => g p.1) = (List.range l.length).map g := by
  rw [show (fun p : Nat × α => g p.1) = g ∘ Prod.fst from rfl, ← List.map_map,
    List.enum_map_fst]

theorem fallbackTasks_map_taskId (lines : List Str) :
    (fallbackTasks lines).map (fun t => t.task_id) =
      (List.range lines.length).map (fun i => taskIdFor (i + 1)) := by
  unfold fallbackTasks
  rw [List.map_map]
  exact enum_map_fst_fn lines (fun i => taskIdFor (i + 1))

theorem fallbackTasks_map_precedes (lines : List Str) :
    (fallbackTasks lines).map (fun t => t.precedes_tasks) =
      (List.range lines.length).map
        (fun i => if i + 1 < lines.length then [taskIdFor (i + 2)] else []) := by
  unfold fallbackTasks
  rw [List.map_map]
  exact enum_map_fst_fn lines
    (fun i => if i + 1 < lines.length then [taskIdFor (i + 2)] else [])

theorem mem_fallbackTasks {lines : List Str} {t : TaskObject}
    (ht : t ∈ fallbackTasks lines) :
    ∃ i : Nat, i < lines.length ∧ t.task_id = taskIdFor (i + 1) ∧
      t.dependencies = [] ∧ t.conditional_logic = none ∧
      t.precedes_tasks =
        (if i + 1 < lines.length then [taskIdFor (i + 2)] else []) := by
  rcases List.mem_map.mp ht with ⟨p, hp, hpt⟩
  have hlt : p.1 < lines.length := by
    have h1 := List.mem_enum_iff_getElem?.mp hp
    rcases List.getElem?_eq_some.mp h1 with ⟨h2, _⟩
    exact h2
  refine ⟨p.1, hlt, ?_, ?_, ?_, ?_⟩ <;> rw [← hpt] <;> rfl

theorem fallbackTasks_taskIds (lines : List Str) :
    taskIds (fallbackTasks lines) =
      (List.range lines.length).map (fun i => taskIdFor (i + 1)) :=
  fallbackTasks_map_taskId lines

theorem fallbackTasks_nodup (lines : List Str) :
    (taskIds (fallbackTasks lines)).Nodup := by
  rw [fallbackTasks_taskIds]
  refine List.Nodup.map ?_ (List.nodup_range _)
  intro a b h
  have := taskIdFor_injective h
  omega

theorem fallback_edge_shape {lines : List Str} {e : Str × Str}
    (he : e ∈ workflowEdges (fallbackTasks lines)) :
    ∃ k : Nat, 1 ≤ k ∧ k < lines.length ∧ e = (taskIdFor k, taskIdFor (k + 1)) := by
  unfold workflowEdges at he
  rcases List.mem_flatten.mp he with ⟨el, hel, hee⟩
  rcases List.mem_map.mp hel with ⟨t, ht, hte⟩
  rcases mem_fallbackTasks ht with ⟨i, hi, hid, _, hcl, hpre⟩
  rw [← hte] at hee
  simp only [taskEdges, hcl, hpre, hid, List.append_nil] at hee
  by_cases hlt : i + 1 < lines.length
  · simp [hlt] at hee
    exact ⟨i + 1, by omega, hlt, by rw [hee]⟩
  · simp [hlt] at hee

theorem reachE_rank {lines : List Str} {a b : Str}
    (h : ReachE (workflowEdges (fallbackTasks lines)) a b) :
    a = b ∨ ∃ i j : Nat, i < j ∧ a = taskIdFor i ∧ b = taskIdFor j := by
  induction h with
  | refl v => exact Or.inl rfl
  | @head u v w huv _ ih =>
    rcases fallback_edge_shape huv with ⟨k, hk1, hkn, hke⟩
    have hu : u = taskIdFor k := congrArg Prod.fst hke
    have hv : v = taskIdFor (k + 1) := congrArg Prod.snd hke
    rcases ih with rfl | ⟨i, j, hij, hvi, hwj⟩
    · exact Or.inr ⟨k, k + 1, by omega, hu, hv⟩
    · have hki : k + 1 = i := taskIdFor_injective (hv.symm.trans hvi)
      exact Or.inr ⟨k, j, by omega, hu, hwj⟩

theorem fallback_no_cycle (lines : List Str) :
    hasCycleB (fallbackTasks lines) = false := by
  cases hcyc : hasCycleB (fallbackTasks lines) with
  | false => rfl
  | true =>
    exfalso
    simp only [hasCycleB, List.any_eq_true] at hcyc
    rcases hcyc with ⟨e, he, hr⟩
    have hmem := (memB_iff _ _).mp hr
    rcases reach_sound _ _ _ _ hmem with ⟨u, hu, hre⟩
    rcases List.mem_singleton.mp hu with rfl
    rcases fallback_edge_shape he with ⟨k, hk1, hkn, hke⟩
    have h1 : e.1 = taskIdFor k := congrArg Prod.fst hke
    have h2 : e.2 = taskIdFor (k + 1) := congrArg Prod.snd hke
    rw [h1, h2] at hre
    rcases reachE_rank hre with heq | ⟨i, j, hij, hvi, hwj⟩
    · have := taskIdFor_injective heq
      omega
    · have hik : i = k + 1 := (taskIdFor_injective hvi).symm
      have hjk : j = k := (taskIdFor_injective hwj).symm
      omega

theorem fallback_root (lines : List Str) (hne : lines ≠ []) :
    hasRootB (fallbackTasks lines) = true := by
  unfold hasRootB
  rw [List.any_eq_true]
  refine ⟨taskIdFor 1, ?_, ?_⟩
  · apply mem_graphNodes_of_taskId
    rw [fallbackTasks_taskIds]
    refine List.mem_map.mpr ⟨0, ?_, rfl⟩
    rw [List.mem_range]
    exact List.length_pos.mpr hne
  · rw [List.all_eq_true]
    intro e he
    rcases fallback_edge_shape he with ⟨k, hk1, _, hke⟩
    have he2 : e.2 = taskIdFor (k + 1) := congrArg Prod.snd hke
    rw [he2]
    have hne1 : taskIdFor (k + 1) ≠ taskIdFor 1 := by
      intro h
      have := taskIdFor_injective h
      omega
    simp [hne1]

theorem fallback_refs_ok (lines : List Str) :
    validate_refs (fallbackTasks lines) = .ok () := by
  rw [validate_refs_ok_iff]
  intro t ht
  rcases mem_fallbackTasks ht with ⟨i, hi, _, hdeps, _, hpre⟩
  constructor
  · rw [hdeps]
    intro d hd
    simp at hd
  · rw [hpre]
    by_cases hlt : i + 1 < lines.length
    · rw [if_pos hlt]
      intro p hp
      rcases List.mem_singleton.mp hp with rfl
      rw [fallbackTasks_taskIds]
      exact List.mem_map.mpr ⟨i + 1, List.mem_range.mpr hlt, rfl⟩
    · rw [if_neg hlt]
      intro p hp
      simp at hp

theorem fallback_validateTasks (lines : List Str) (hne : lines ≠ []) :
    validateTasks (fallbackTasks lines) = .ok () := by
  unfold validateTasks
  rw [fallback_refs_ok lines]
  unfold validate_dag
  rw [fallback_no_cycle lines, fallback_root lines hne]
  rfl

theorem fallbackTasks_ne_nil {lines : List Str} (hne : lines ≠ []) :
    fallbackTasks lines ≠ [] := by
  intro hcon
  apply hne
  unfold fallbackTasks at hcon
  rw [List.map_eq_nil_iff, List.enum_eq_nil] at hcon
  exact hcon

/-! ## Claim theorems -/

/-- C1 (counterexample): constructing a workflow whose two tasks share the
task id `"A"` succeeds, and the resulting workflow's task ids are not
unique — refuting the claim that duplicate task ids fail with a
`DuplicateTaskID` error. -/
theorem c1_counterexample :
    mkWorkflow (("W").data) [dupTask1, dupTask2] =
      .ok ⟨("W").data, [dupTask1, dupTask2]⟩ ∧
    ¬ (taskIds [dupTask1, dupTask2]).Nodup :=
  ⟨by decide, by decide⟩

/-- C1 (amended): construction performs no duplicate-task-id check at all —
for every name and every pair of tasks sharing one task id (with no
references), construction succeeds. -/
theorem c1_no_duplicate_check (name i d₁ d₂ r₁ r₂ : Str) :
    mkWorkflow name [mkTask i d₁ r₁ [] [] none, mkTask i d₂ r₂ [] [] none] =
      .ok ⟨name, [mkTask i d₁ r₁ [] [] none, mkTask i d₂ r₂ [] [] none]⟩ := by
  simp [mkWorkflow, validateTasks, validate_refs, refsGo, findMissing, mkTask,
    validate_dag, hasCycleB, hasRootB, graphNodes, workflowEdges, taskEdges,
    taskIds]

/-- C2 (counterexample): a workflow whose only task's conditional branch
targets the non-existent task `"Z"` constructs successfully — refuting the
claim that the reference check covers the conditional target fields. -/
theorem c2_counterexample :
    mkWorkflow (("W").data) [condDanglingTask] =
      .ok ⟨("W").data, [condDanglingTask]⟩ ∧
    condDanglingTask.conditional_logic = some ⟨("c").data, ("Z").data, none⟩ ∧
    ¬ ("Z").data ∈ taskIds [condDanglingTask] :=
  ⟨by decide, rfl, by decide⟩

/-- C2 (amended): the reference check covers exactly the `dependencies` and
`precedes_tasks` fields — it passes iff every dependency and successor
resolves, conditional targets unchecked — and within a task the
dependencies are checked before the successors, so a task with both a
missing dependency `"D"` and a missing successor `"P"` reports the
dependency first. -/
theorem c2_ref_check_coverage :
    (∀ tasks : List TaskObject, validate_refs tasks = .ok () ↔
      ∀ t ∈ tasks, (∀ d ∈ t.dependencies, d ∈ taskIds tasks) ∧
        (∀ p ∈ t.precedes_tasks, p ∈ taskIds tasks)) ∧
    validate_refs [refsBothTask] = .error (.dependencyNotFound (("D").data)) :=
  ⟨validate_refs_ok_iff, by decide⟩

/-- C2 (witness): the amended reference-check characterisation applied to
the concrete two-task chain workflow. -/
theorem c2_witness : validate_refs [t1def, t2def] = .ok () :=
  (c2_ref_check_coverage.1 [t1def, t2def]).mpr (by decide)

/-- C3 (counterexample): the two-task cycle `A ⇄ B` is rejected, but the
error raised is the fixed-message `ValueError("Workflow contains cycles")`,
whose message names neither `A` nor `B` — refuting the claim that the
error carries the ordered list of task ids forming the cycle. -/
theorem c3_counterexample :
    mkWorkflow (("W").data) [cycTaskA, cycTaskB] = .error .cycles ∧
    ValidationError.cycles.message = ("Workflow contains cycles").data ∧
    ¬ 'A' ∈ ValidationError.cycles.message ∧
    ¬ 'B' ∈ ValidationError.cycles.message :=
  ⟨by decide, rfl, by decide, by decide⟩

/-- C3 (amended): for every workflow that passes the reference check and
whose precedes/conditional edge graph contains a (simple) cycle,
construction fails with the cycle error — which carries no path, only the
fixed message. -/
theorem c3_cycle_rejected (name : Str) (tasks : List TaskObject) (l : List Str)
    (hrefs : validate_refs tasks = .ok ())
    (hcyc : isCycleB (workflowEdges tasks) l = true) :
    mkWorkflow name tasks = .error .cycles := by
  have h1 : hasCycleB tasks = true := isCycle_hasCycle hcyc
  simp [mkWorkflow, validateTasks, validate_dag, hrefs, h1]

/-- C3 (witness): the amended theorem applied to the concrete `A ⇄ B`
cycle with cycle list `["A", "B"]`. -/
theorem c3_witness : mkWorkflow (("W").data) [cycTaskA, cycTaskB] = .error .cycles :=
  c3_cycle_rejected (("W").data) [cycTaskA, cycTaskB]
    [("A").data, ("B").data] (by decide) (by decide)

/-- C4 (counterexample): a workflow whose single task precedes the
non-existent `"Z"` satisfies the claim's stated hypotheses — every
`dependencies` entry resolves (vacuously) and the precedes/conditional
edge graph `A → Z` is acyclic with the in-degree-zero node `A` — yet
validation fails at the reference check, refuting the claim as stated. -/
theorem c4_counterexample :
    (∀ t ∈ [danglingPrecTask], ∀ d ∈ t.dependencies, d ∈ taskIds [danglingPrecTask]) ∧
    hasCycleB [danglingPrecTask] = false ∧
    hasRootB [danglingPrecTask] = true ∧
    mkWorkflow (("W").data) [danglingPrecTask] =
      .error (.successorNotFound (("Z").data)) :=
  ⟨by decide, by decide, by decide, by decide⟩

/-- C4 (amended): `dependencies` contributes no edges to the validated
graph — any workflow whose dependencies *and successors* all resolve and
whose precedes/conditional edge graph is acyclic with a root validates, no
matter what shape the dependency relation has. -/
theorem c4_depends_no_edges (name : Str) (tasks : List TaskObject)
    (hdep : ∀ t ∈ tasks, ∀ d ∈ t.dependencies, d ∈ taskIds tasks)
    (hpre : ∀ t ∈ tasks, ∀ p ∈ t.precedes_tasks, p ∈ taskIds tasks)
    (hacyc : hasCycleB tasks = false) (hroot : hasRootB tasks = true) :
    mkWorkflow name tasks = .ok ⟨name, tasks⟩ := by
  have hrefs : validate_refs tasks = .ok () :=
    (validate_refs_ok_iff tasks).mpr (fun t ht => ⟨hdep t ht, hpre t ht⟩)
  simp [mkWorkflow, validateTasks, validate_dag, hrefs, hacyc, hroot]

/-- C4 (witness): the dependency relation of `A depends on B, B depends on
A` is a cycle, yet the workflow validates because dependencies add no
edges. -/
theorem c4_witness :
    hasCycleB [depCycTaskA, depCycTaskB] = false ∧
    mkWorkflow (("W").data) [depCycTaskA, depCycTaskB] =
      .ok ⟨("W").data, [depCycTaskA, depCycTaskB]⟩ :=
  ⟨by decide, c4_depends_no_edges (("W").data) [depCycTaskA, depCycTaskB]
    (by decide) (by decide) (by decide) (by decide)⟩

/-- C5 (code bug): the enrichment stage rebinds the workflow before
re-validating and swallows the re-validation failure, so an enricher that
returns an invalid workflow (here: task `A` gains the dangling successor
`"Z"`) has that *invalid* workflow handed on to rendering and persistence;
only an enricher that itself raises keeps the pre-enrichment workflow. -/
theorem c5_enrichment_leak :
    validateTasks c5GoodWf.tasks = .ok () ∧
    enrichStage c5GoodWf (some (fun _ => .ok c5BadWf)) = c5BadWf ∧
    validateTasks c5BadWf.tasks = .error (.successorNotFound (("Z").data)) ∧
    (∀ msg : Str, enrichStage c5GoodWf (some (fun _ => .error msg)) = c5GoodWf) :=
  ⟨by decide, rfl, by decide, fun _ => rfl⟩

/-- C6: for every transcript (and any recorded extraction-error name), the
rule-based fallback workflow has pairwise-distinct task ids, passes the
full validation (references, acyclicity, root), and is a single linear
chain `T1 → T2 → ⋯ → Tn` (a single node when no non-blank lines exist). -/
theorem c6_fallback_valid_chain (transcript : Str) (err : Option Str) :
    (taskIds (fallback transcript err).tasks).Nodup ∧
    validateTasks (fallback transcript err).tasks = .ok () ∧
    ∃ n : Nat, 0 < n ∧
      taskIds (fallback transcript err).tasks =
        (List.range n).map (fun i => taskIdFor (i + 1)) ∧
      (fallback transcript err).tasks.map (fun t => t.precedes_tasks) =
        (List.range n).map
          (fun i => if i + 1 < n then [taskIdFor (i + 2)] else []) := by
  have hwf : (fallback transcript err).tasks =
      if fallbackTasks (((splitLines transcript).map pyStrip).filter
          (fun l => l ≠ [])) = []
      then [fallbackDefaultTask]
      else fallbackTasks (((splitLines transcript).map pyStrip).filter
          (fun l => l ≠ [])) := rfl
  by_cases hl : ((splitLines transcript).map pyStrip).filter (fun l => l ≠ []) = []
  · have h0 : (if fallbackTasks ([] : List Str) = [] then [fallbackDefaultTask]
        else fallbackTasks []) = [fallbackDefaultTask] := rfl
    rw [hwf, hl, h0]
    exact ⟨by decide, by decide, 1, by decide, by decide, by decide⟩
  · rw [hwf, if_neg (fallbackTasks_ne_nil hl)]
    exact ⟨fallbackTasks_nodup _, fallback_validateTasks _ hl, _,
      List.length_pos.mpr hl, fallbackTasks_taskIds _, fallbackTasks_map_precedes _⟩

/-- C7: rendering is a pure function of the workflow value — equal
validated workflows render to byte-identical strings (the renderer iterates
only the ordered task list, never an unordered collection). -/
theorem c7_render_deterministic (wf₁ wf₂ : JobWorkflowSchema) (h : wf₁ = wf₂) :
    Mermaid.render wf₁ = Mermaid.render wf₂ := by
  rw [h]

/-- C7 (witness): rendering the validated two-task workflow twice yields
identical output. -/
theorem c7_witness : Mermaid.render wfT = Mermaid.render wfT :=
  c7_render_deterministic wfT wfT rfl

/-- `Mermaid._sanitize` in closed form: pointwise collapse of newlines and
double quotes, then truncation with an ellipsis when longer than the
maximum. -/
theorem sanitize_eq (text : Str) (L : Nat) :
    Mermaid.sanitize text L =
      if L < text.length then (text.map collapseChar).take (L - 1) ++ ("...").data
      else text.map collapseChar := by
  unfold Mermaid.sanitize
  rw [List.map_map]
  have hf : ((fun c => if c = '"' then '\'' else c) ∘
      fun c => if c = '\n' then ' ' else c) = collapseChar := by
    funext c
    by_cases h1 : c = '\n'
    · subst h1; rfl
    · by_cases h2 : c = '"'
      · subst h2; rfl
      · simp [collapseChar, h1, h2, Function.comp]
  rw [hf]
  simp only [List.length_map]

/-- No character of a collapsed label is a newline or a double quote. -/
theorem collapseChar_ne (c : Char) : collapseChar c ≠ '\n' ∧ collapseChar c ≠ '"' := by
  unfold collapseChar
  by_cases h1 : c = '\n'
  · simp [h1]
  · by_cases h2 : c = '"'
    · simp [h1, h2]
    · simp [h1, h2]

/-- C8: sanitization collapses newlines to spaces and double quotes to
single quotes (no output character is a newline or double quote), leaves
text within the limit otherwise unchanged, and truncates to `maxLen - 1`
characters plus an ellipsis when the text exceeds the limit — at limit 120
(task description label) and 60 (condition label). -/
theorem c8_sanitize_spec (text : Str) :
    (∀ c ∈ Mermaid.sanitize text 120, c ≠ '\n' ∧ c ≠ '"') ∧
    (∀ c ∈ Mermaid.sanitize text 60, c ≠ '\n' ∧ c ≠ '"') ∧
    (text.length ≤ 120 → Mermaid.sanitize text 120 = text.map collapseChar) ∧
    (120 < text.length → Mermaid.sanitize text 120 =
      (text.map collapseChar).take 119 ++ ("...").data) ∧
    (text.length ≤ 60 → Mermaid.sanitize text 60 = text.map collapseChar) ∧
    (60 < text.length → Mermaid.sanitize text 60 =
      (text.map collapseChar).take 59 ++ ("...").data) := by
  have hmem : ∀ (L : Nat), ∀ c ∈ Mermaid.sanitize text L, c ≠ '\n' ∧ c ≠ '"' := by
    intro L c hc
    rw [sanitize_eq] at hc
    split at hc
    · rcases List.mem_append.mp hc with h1 | h1
      · rcases List.mem_map.mp (List.take_subset _ _ h1) with ⟨c₀, _, rfl⟩
        exact collapseChar_ne c₀
      · rw [show ("...").data = ['.', '.', '.'] from rfl] at h1
        simp only [List.mem_cons, List.not_mem_nil, or_false] at h1
        rcases h1 with rfl | rfl | rfl <;> exact ⟨by decide, by decide⟩
    · rcases List.mem_map.mp hc with ⟨c₀, _, rfl⟩
      exact collapseChar_ne c₀
  refine ⟨hmem 120, hmem 60, ?_, ?_, ?_, ?_⟩
  · intro h; rw [sanitize_eq, if_neg (by omega)]
  · intro h; rw [sanitize_eq, if_pos h]
  · intro h; rw [sanitize_eq, if_neg (by omega)]
  · intro h; rw [sanitize_eq, if_pos h]

/-- C8 (witness): a label containing a double quote and a newline is
rendered with the quote converted to a single quote and the newline
collapsed to a space. -/
theorem c8_witness :
    Mermaid.sanitize (("a\"b\nc").data) 120 = ("a'b c").data := by
  have h := (c8_sanitize_spec (("a\"b\nc").data)).2.2.1 (by decide)
  rw [h]
  decide

/-- C9: the two-task workflow `T1 → T2` validates, and its rendering emits
exactly one header entry, one node entry per task and the single edge entry
`T1 --> T2`; and every task whose conditional branch has a true target but
no false target contributes exactly one conditional edge entry. -/
theorem c9_render_scenario :
    mkWorkflow (("W").data) [t1def, t2def] = .ok wfT ∧
    Mermaid.renderLines wfT =
      [("graph TD").data,
       ("    T1([\"d1\n<sub>r</sub>\"])").data,
       ("    T2([\"d2\n<sub>r</sub>\"])").data,
       ("    T1 --> T2").data] ∧
    ∀ (t : TaskObject) (c : ConditionalLogic),
      t.conditional_logic = some c → c.false_path_task_id = none →
      (Mermaid.condEdgeLines t).length = 1 := by
  refine ⟨by decide, by decide, ?_⟩
  intro t c hc hf
  simp [Mermaid.condEdgeLines, hc, hf]

/-- C9 (witness): the one-conditional-edge rule at a concrete task whose
branch has only a true target. -/
theorem c9_witness : (Mermaid.condEdgeLines condOnlyTrueTask).length = 1 :=
  c9_render_scenario.2.2 condOnlyTrueTask condOnlyTrueCL rfl rfl

/-- `validateTasks` returns the no-root error exactly when the reference
check passes, the graph is acyclic, and no node has in-degree zero. -/
theorem validateTasks_eq_noRoot_iff (tasks : List TaskObject) :
    validateTasks tasks = .error .noRoot ↔
      validate_refs tasks = .ok () ∧ hasCycleB tasks = false ∧
        hasRootB tasks = false := by
  unfold validateTasks validate_dag
  cases hr : validate_refs tasks with
  | error e =>
    simp only [Except.error.injEq]
    constructor
    · intro h
      rcases refsGo_error_shape _ _ e hr with ⟨d, hd⟩ | ⟨n, hn⟩ <;> simp_all
    · rintro ⟨h1, _, _⟩
      simp at h1
  | ok u =>
    cases u
    cases hc : hasCycleB tasks with
    | true => simp
    | false =>
      cases hro : hasRootB tasks with
      | true => simp
      | false => simp

/-- C10: construction fails with the no-root error exactly when the task
list is empty — any nonempty workflow that passes the reference and cycle
checks necessarily has an in-degree-zero node, so the root check cannot be
what rejects it. -/
theorem c10_noRoot_iff_empty (name : Str) (tasks : List TaskObject) :
    mkWorkflow name tasks = .error .noRoot ↔ tasks = [] := by
  have hmk : mkWorkflow name tasks = .error .noRoot ↔
      validateTasks tasks = .error .noRoot := by
    unfold mkWorkflow
    cases hvt : validateTasks tasks with
    | error e => simp
    | ok u => cases u; simp
  rw [hmk, validateTasks_eq_noRoot_iff]
  constructor
  · rintro ⟨_, h2, h3⟩
    by_contra hne
    rw [hasRoot_of_acyclic hne h2] at h3
    exact Bool.noConfusion h3
  · rintro rfl
    exact ⟨rfl, rfl, rfl⟩

/-- C10 (witness): the empty workflow is rejected with the no-root
error. -/
theorem c10_witness :
    mkWorkflow (("W").data) ([] : List TaskObject) = .error .noRoot :=
  (c10_noRoot_iff_empty (("W").data) []).mpr rfl
